import Mathlib

/-!
Verification of the hierarchical policy-type tree core of the backend_crm
repository (src/src/controllers/policy.ts), shallowly embedded in Lean.

The embedding models the JavaScript string primitives used by the code
(toLowerCase, trim, split(">")) as computations on the character list of a
string, so that concrete instances evaluate inside proofs, and models the
optional child field of a policy node as an Option: a present (possibly
empty) children array is some, an absent field is none, matching the
truthiness tests the source performs on node.child (an empty array is
truthy in JavaScript).
-/

/-! ## JavaScript string primitives -/

/-- Model of the JavaScript String.prototype.toLowerCase used for
case-insensitive label comparison. -/
def jsToLower (s : String) : String := ⟨s.data.map Char.toLower⟩

/-- Model of the JavaScript String.prototype.trim: whitespace stripped from
both ends. -/
def jsTrim (s : String) : String :=
  ⟨((s.data.dropWhile Char.isWhitespace).reverse.dropWhile Char.isWhitespace).reverse⟩

/-- Model of the JavaScript split(">") on the character list: boundary
behavior matches String.prototype.split (an input with no separator yields
a one-element list; a trailing separator yields a trailing empty piece). -/
def jsSplitGt : List Char → List Char → List String
  | [], acc => [⟨acc.reverse⟩]
  | c :: cs, acc =>
    if c = '>' then ⟨acc.reverse⟩ :: jsSplitGt cs [] else jsSplitGt cs (c :: acc)

/-- Path parsing as performed by getPolicyNodeByPath and addPolicyNode:
split the query on ">", then trim and lowercase each segment. -/
def parsePath (s : String) : List String :=
  (jsSplitGt s.data []).map fun t => jsToLower (jsTrim t)

/-- Normalization applied to a single path segment. -/
def normSeg (s : String) : String := jsToLower (jsTrim s)

/-! ## Data model (interface PolicyNode of policy.ts) -/

/-- interface PolicyNode: current is the label, child_exists the
has-children flag, child the optional children array.  child = none models
an absent (or null / undefined) child field; child = some l a present
array, which is truthy in JavaScript even when empty. -/
inductive PolicyNode where
  | mk (current : String) (child_exists : Bool) (child : Option (List PolicyNode))

/-- Label accessor. -/
def PolicyNode.current : PolicyNode → String
  | .mk c _ _ => c

/-- Flag accessor. -/
def PolicyNode.child_exists : PolicyNode → Bool
  | .mk _ e _ => e

/-- Children accessor. -/
def PolicyNode.child : PolicyNode → Option (List PolicyNode)
  | .mk _ _ c => c

/-- type PolicyData = PolicyNode[] (a forest). -/
abbrev PolicyData := List PolicyNode

/-! ## Flattener (flattenPolicyStructure in getPolicyStructure) -/

/-- The record pushed on each visited node by flattenPolicyStructure. -/
structure FlatEntry where
  name : String
  path : String
  level : Nat
  has_children : Bool
  full_path : List String
deriving Repr, DecidableEq

/-- currentPath.join(" > "). -/
def joinPath (p : List String) : String := String.intercalate " > " p

/-- The entry flattenPolicyStructure pushes for a node with label cur and
flag ce reached along path: currentPath = path ++ [cur]. -/
def mkEntry (cur : String) (ce : Bool) (path : List String) : FlatEntry :=
  { name := cur
    path := joinPath (path ++ [cur])
    level := (path ++ [cur]).length
    has_children := ce
    full_path := path ++ [cur] }

/-- flattenPolicyStructure (policy.ts, getPolicyStructure): for each node of
the forest push its entry, then, when child_exists and the child array is
present, the recursively flattened children, then continue with the
remaining siblings. -/
def flattenPolicyStructure : List PolicyNode → List String → List FlatEntry
  | [], _ => []
  | .mk cur true (some l) :: rest, path =>
    mkEntry cur true path ::
      (flattenPolicyStructure l (path ++ [cur]) ++ flattenPolicyStructure rest path)
  | .mk cur ce _ :: rest, path =>
    mkEntry cur ce path :: flattenPolicyStructure rest path

/-! ## Path resolver (findNodeByPath in getPolicyNodeByPath) -/

/-- findNodeByPath (policy.ts, getPolicyNodeByPath): scan the level for a
node whose lowercased label equals the head segment; on the last segment
return it; otherwise, when child_exists and the child array is present,
return the result of resolving the tail in the children (committing even
when that result is null); a matched node without qualifying children does
not return, so the loop continues with the later siblings.  An empty
segment list matches no node (targetPath[0] is undefined). -/
def findNodeByPath : List PolicyNode → List String → Option PolicyNode
  | [], _ => none
  | _ :: _, [] => none
  | .mk cur ce ch :: rest, t0 :: ts =>
    if jsToLower cur = t0 then
      if ts.isEmpty then some (.mk cur ce ch)
      else
        match ce, ch with
        | true, some l => findNodeByPath l ts
        | _, _ => findNodeByPath rest (t0 :: ts)
    else findNodeByPath rest (t0 :: ts)

/-! ## Leaf enumerator (getLeafNodes in getPolicyLeafNodes) -/

/-- The record pushed for each leaf by getLeafNodes. -/
structure LeafEntry where
  name : String
  path : String
  level : Nat
  full_path : List String
deriving Repr, DecidableEq

/-- The entry getLeafNodes pushes for a leaf with label cur reached along
path. -/
def mkLeafEntry (cur : String) (path : List String) : LeafEntry :=
  { name := cur
    path := joinPath (path ++ [cur])
    level := (path ++ [cur]).length
    full_path := path ++ [cur] }

/-- getLeafNodes (policy.ts, getPolicyLeafNodes): a node with
child_exists = false is emitted as a leaf; otherwise, when the child array
is present, recurse into it; a node with child_exists = true and no child
array is neither emitted nor recursed into. -/
def getLeafNodes : List PolicyNode → List String → List LeafEntry
  | [], _ => []
  | .mk cur false _ :: rest, path =>
    mkLeafEntry cur path :: getLeafNodes rest path
  | .mk cur true (some l) :: rest, path =>
    getLeafNodes l (path ++ [cur]) ++ getLeafNodes rest path
  | .mk _ true none :: rest, path => getLeafNodes rest path

/-! ## Level analyzer (countNodesByLevel in getPolicyAnalytics) -/

mutual

/-- countNodesByLevel (policy.ts, getPolicyAnalytics), modelled as the
count at a queried level q: the record starts as one binding of the current
level to the length of the level, and the recursively computed child
records are merged additively into it.  A level absent from the record
reads as 0, matching the (counts[lvl] || 0) merge of the source. -/
def countNodesByLevel (nodes : List PolicyNode) (level : Nat) (q : Nat) : Nat :=
  (if q = level then nodes.length else 0) + childContrib nodes level q
termination_by (sizeOf nodes, 1)

/-- The merged contribution of the child records of the nodes of one level:
a node contributes only when child_exists and its child array is
present. -/
def childContrib : List PolicyNode → Nat → Nat → Nat
  | [], _, _ => 0
  | .mk _ true (some l) :: rest, level, q =>
    countNodesByLevel l (level + 1) q + childContrib rest level q
  | .mk _ _ _ :: rest, level, q => childContrib rest level q
termination_by nodes _ _ => (sizeOf nodes, 0)

end

/-! ## Node inserter (addPolicyNode handler of policy.ts) -/

/-- The request body field newNode of addPolicyNode: current is required
(checked for truthiness by the handler), child_exists and child are
optional and defaulted by the handler. -/
structure NewNode where
  current : String
  child_exists : Option Bool := none
  child : Option (List PolicyNode) := none

/-- The node the handler pushes: current, child_exists defaulted with
(newNode.child_exists || false), child defaulted with (newNode.child || []),
so the pushed node always carries a present (possibly empty) child
array. -/
def materializeNewNode (n : NewNode) : PolicyNode :=
  .mk n.current (n.child_exists.getD false) (some (n.child.getD []))

/-- addToParent (policy.ts, addPolicyNode), returned as the mutated forest
on success and none on failure.  Scan the level for a node whose lowercased
label equals the head segment; on the last segment push the materialized
new node onto its (created-if-absent) child array and force child_exists to
true; otherwise, when a child array is present, return the result of the
recursion into it (committing even on failure); a matched node without a
child array does not return, so the loop continues with later siblings.
Unlike findNodeByPath, the recursion tests only the presence of the child
array, not the child_exists flag. -/
def addToParent (newNode : NewNode) : List PolicyNode → List String → Option (List PolicyNode)
  | [], _ => none
  | _ :: _, [] => none
  | .mk cur ce ch :: rest, t0 :: ts =>
    if jsToLower cur = t0 then
      if ts.isEmpty then
        some (.mk cur true (some (ch.getD [] ++ [materializeNewNode newNode])) :: rest)
      else
        match ch with
        | some l =>
          match addToParent newNode l ts with
          | some l2 => some (.mk cur ce (some l2) :: rest)
          | none => none
        | none =>
          match addToParent newNode rest (t0 :: ts) with
          | some rest2 => some (.mk cur ce ch :: rest2)
          | none => none
    else
      match addToParent newNode rest (t0 :: ts) with
      | some rest2 => some (.mk cur ce ch :: rest2)
      | none => none

/-- Root-level insertion branch of addPolicyNode (no parent path):
policyData.push of the materialized node. -/
def rootInsert (f : List PolicyNode) (nn : NewNode) : List PolicyNode :=
  f ++ [materializeNewNode nn]

/-- JSON.parse(JSON.stringify(policy.data)): the identity on a decoded
forest (the JSON round trip of plain data), used by addPolicyNode as a deep
copy so the fetched record value is never mutated. -/
def deepCopy (f : List PolicyNode) : List PolicyNode := f

/-- String escaping of JSON.stringify, restricted to quote and backslash
(the only escapes relevant to label strings here). -/
def jsonEscape (s : String) : String :=
  s.data.foldl
    (fun acc c =>
      acc ++ (if c = '"' then "\\\"" else if c = '\\' then "\\\\" else String.singleton c))
    ""

mutual

/-- JSON.stringify of a single policy node: fields in insertion order
(current, child_exists, then child when present). -/
def stringifyNode : PolicyNode → String
  | .mk cur ce (some l) =>
    "\x7b\"current\":\"" ++ jsonEscape cur ++ "\",\"child_exists\":"
      ++ (if ce then "true" else "false") ++ ",\"child\":" ++ stringifyForest l ++ "\x7d"
  | .mk cur ce none =>
    "\x7b\"current\":\"" ++ jsonEscape cur ++ "\",\"child_exists\":"
      ++ (if ce then "true" else "false") ++ "\x7d"
termination_by n => (sizeOf n, 0)

/-- JSON.stringify of a forest (a JSON array). -/
def stringifyForest (l : List PolicyNode) : String :=
  "[" ++ stringifyItems l ++ "]"
termination_by (sizeOf l, 1)

/-- Comma-separated stringified nodes. -/
def stringifyItems : List PolicyNode → String
  | [] => ""
  | [n] => stringifyNode n
  | n :: rest => stringifyNode n ++ "," ++ stringifyItems rest
termination_by l => (sizeOf l, 0)

end

/-- The value the handler hands to the persistence collaborator as the
record data field: either a decoded forest (as createPolicy and
updatePolicy store, and as every read operation consumes) or a raw string
(what addPolicyNode actually passes: JSON.stringify(policyData)). -/
inductive StoredValue where
  | forest (f : List PolicyNode)
  | str (s : String)

/-- Outcome of one addPolicyNode request. -/
inductive AddNodeResult where
  | badRequest
  | parentNotFound
  | updated (persisted : StoredValue)

/-- The addPolicyNode handler (policy.ts): reject a missing newNode or one
with a falsy current; deep-copy the stored forest; with no parent path (or
the falsy empty-string path) push at the root, otherwise parse the path and
run addToParent, answering parent-not-found on failure; on success hand
JSON.stringify(policyData) to the persistence update. -/
def addPolicyNode (stored : List PolicyNode) (parentPath : Option String)
    (newNode : Option NewNode) : AddNodeResult :=
  match newNode with
  | none => .badRequest
  | some nn =>
    if nn.current = "" then .badRequest
    else
      let policyData := deepCopy stored
      match parentPath with
      | none => .updated (.str (stringifyForest (rootInsert policyData nn)))
      | some p =>
        if p = "" then .updated (.str (stringifyForest (rootInsert policyData nn)))
        else
          match addToParent nn policyData (parsePath p) with
          | some mutated => .updated (.str (stringifyForest mutated))
          | none => .parentNotFound

/-- The record data field after one addPolicyNode request against a record
holding the decoded forest stored: the handler calls the persistence update
exactly on the updated outcome, so on every other outcome the record keeps
its prior value. -/
def finalRecordData (stored : List PolicyNode) (parentPath : Option String)
    (newNode : Option NewNode) : StoredValue :=
  match addPolicyNode stored parentPath newNode with
  | .updated v => v
  | _ => .forest stored

/-! ## Structure validator (validatePolicyNode of createPolicy) -/

/-- A JavaScript (JSON-like) runtime value, as far as the validator
distinguishes them. -/
inductive JVal where
  | str (s : String)
  | num (n : Int)
  | bool (b : Bool)
  | null
  | arr (elems : List JVal)
  | obj (fields : List (String × JVal))

/-- Property access on an object field list. -/
def jsField : List (String × JVal) → String → Option JVal
  | [], _ => none
  | (k, v) :: rest, key => if k = key then some v else jsField rest key

mutual

/-- validatePolicyNode (policy.ts, createPolicy / updatePolicy /
bulkCreatePolicies): reject a value that is not a non-null object; reject a
missing, non-string or empty (falsy) current; reject a non-boolean
child_exists; when child_exists is true demand a present array child whose
every element validates recursively; when it is false accept without
looking at child.  A JavaScript array passes the typeof test of the source
but has no current property, so it is rejected the same way. -/
def validatePolicyNode : JVal → Bool
  | .obj fields =>
    match jsField fields "current" with
    | some (.str s) =>
      if s = "" then false
      else
        match jsField fields "child_exists" with
        | some (.bool ce) => if ce then childFieldValid fields else true
        | _ => false
    | _ => false
  | _ => false
termination_by v => sizeOf v

/-- The child test of the validator, fused with the property lookup: the
first field named child must be a (possibly empty) array, every element of
which validates; a missing child field is falsy and rejected. -/
def childFieldValid : List (String × JVal) → Bool
  | [] => false
  | ("child", .arr l) :: _ => validateAll l
  | ("child", _) :: _ => false
  | _ :: rest => childFieldValid rest
termination_by fields => sizeOf fields

/-- node.child.every(validatePolicyNode). -/
def validateAll : List JVal → Bool
  | [] => true
  | v :: rest => validatePolicyNode v && validateAll rest
termination_by l => sizeOf l

end

/-! ## Specification-side definitions

Definitions in this section restate quantities named by the specification
(total node count, the data-model invariant, the claimed first-match
resolution algorithm) or instrument a source function without changing it
(flattenWithNodes pairs every emitted entry with the node that produced
it), so the claims can be stated and compared against the source
functions. -/

/-- The children a traversal that tests child_exists and the presence of
the child array descends into (the qualifying children of
flattenPolicyStructure, findNodeByPath, getLeafNodes and
countNodesByLevel). -/
def visChildren : PolicyNode → List PolicyNode
  | .mk _ true (some l) => l
  | _ => []

/-- Total node count of a forest, counting every node stored in every child
array — all nested descendants, whether or not the flags make them
reachable. -/
def totalNodeCount : List PolicyNode → Nat
  | [] => 0
  | .mk _ _ (some l) :: rest => 1 + totalNodeCount l + totalNodeCount rest
  | .mk _ _ none :: rest => 1 + totalNodeCount rest

/-- The data-model invariant of the specification: a node with
child_exists = false carries an empty or absent child array, recursively at
every depth. -/
def wellFormed : List PolicyNode → Bool
  | [] => true
  | .mk _ ce (some l) :: rest => (ce || l.isEmpty) && (wellFormed l && wellFormed rest)
  | .mk _ _ none :: rest => wellFormed rest

/-- Every label of the forest (recursively, through every child array) is
unchanged by segment normalization up to lowercasing: lowercasing the
trimmed label gives the lowercased label. -/
def trimmedLabels : List PolicyNode → Bool
  | [] => true
  | .mk cur _ (some l) :: rest =>
    (jsToLower (jsTrim cur) == jsToLower cur) && (trimmedLabels l && trimmedLabels rest)
  | .mk cur _ none :: rest =>
    (jsToLower (jsTrim cur) == jsToLower cur) && trimmedLabels rest

/-- No two siblings of any level of the forest (recursively, through every
child array) share the same lowercased label. -/
def noDupSibLabels : List PolicyNode → Bool
  | [] => true
  | .mk cur _ (some l) :: rest =>
    (rest.all fun n => jsToLower n.current != jsToLower cur)
      && (noDupSibLabels l && noDupSibLabels rest)
  | .mk cur _ none :: rest =>
    (rest.all fun n => jsToLower n.current != jsToLower cur) && noDupSibLabels rest

/-- flattenPolicyStructure instrumented to pair each emitted entry with the
node that produced it; the emission order, the entries and the recursion
are exactly those of the source function. -/
def flattenWithNodes : List PolicyNode → List String → List (FlatEntry × PolicyNode)
  | [], _ => []
  | .mk cur true (some l) :: rest, path =>
    (mkEntry cur true path, .mk cur true (some l)) ::
      (flattenWithNodes l (path ++ [cur]) ++ flattenWithNodes rest path)
  | .mk cur ce ch :: rest, path =>
    (mkEntry cur ce path, .mk cur ce ch) :: flattenWithNodes rest path

mutual

/-- Erase from one node every descendant the read operations cannot reach:
under child_exists = false drop the child array altogether, under
child_exists = true prune the present children recursively. -/
def pruneNode : PolicyNode → PolicyNode
  | .mk cur true (some l) => .mk cur true (some (pruneForest l))
  | .mk cur true none => .mk cur true none
  | .mk cur false _ => .mk cur false none

/-- Erase the unreachable descendants of every node of a forest. -/
def pruneForest : List PolicyNode → List PolicyNode
  | [] => []
  | n :: rest => pruneNode n :: pruneForest rest

end

/-- Modelled from the claim wording for comparison with findNodeByPath: the
first node of the level whose lowercased label equals the head segment
wins outright — when it is not at the last segment and declares no
qualifying children, resolution fails with not-found instead of scanning
later siblings. -/
def findByPathFirstMatch : List PolicyNode → List String → Option PolicyNode
  | [], _ => none
  | _ :: _, [] => none
  | .mk cur ce ch :: rest, t0 :: ts =>
    if jsToLower cur = t0 then
      if ts.isEmpty then some (.mk cur ce ch)
      else
        match ce, ch with
        | true, some l => findByPathFirstMatch l ts
        | _, _ => none
    else findByPathFirstMatch rest (t0 :: ts)

/-- The parent-locating traversal actually performed by addToParent,
with the mutation stripped: first match on the lowercased label, recursion
committed whenever a child array is present (the child_exists flag is not
consulted), matched nodes without a child array skipped in favor of later
siblings. -/
def findParent : List PolicyNode → List String → Bool
  | [], _ => false
  | _ :: _, [] => false
  | .mk cur _ ch :: rest, t0 :: ts =>
    if jsToLower cur = t0 then
      if ts.isEmpty then true
      else
        match ch with
        | some l => findParent l ts
        | none => findParent rest (t0 :: ts)
    else findParent rest (t0 :: ts)

/-- The validity predicate as the specification words it: a valid candidate
is an object with a non-empty string label (current), a boolean
has-children flag (child_exists), and, when the flag is true, a present
array child field all of whose elements are recursively valid; when the
flag is false the child field is not constrained. -/
inductive ValidNode : JVal → Prop where
  | leaf (fields : List (String × JVal)) (s : String) :
      jsField fields "current" = some (.str s) → s ≠ "" →
      jsField fields "child_exists" = some (.bool false) →
      ValidNode (.obj fields)
  | branch (fields : List (String × JVal)) (s : String) (l : List JVal) :
      jsField fields "current" = some (.str s) → s ≠ "" →
      jsField fields "child_exists" = some (.bool true) →
      jsField fields "child" = some (.arr l) →
      (∀ v ∈ l, ValidNode v) →
      ValidNode (.obj fields)

/-! ## Helper lemmas -/

theorem flatten_append (a b : List PolicyNode) (p : List String) :
    flattenPolicyStructure (a ++ b) p
      = flattenPolicyStructure a p ++ flattenPolicyStructure b p := by
  induction a generalizing p with
  | nil => simp [flattenPolicyStructure]
  | cons n rest ih =>
    match n with
    | .mk cur true (some l) => simp [flattenPolicyStructure, ih]
    | .mk cur true none => simp [flattenPolicyStructure, ih]
    | .mk cur false ch => simp [flattenPolicyStructure, ih]

theorem flattenWithNodes_map_fst (f : List PolicyNode) (p : List String) :
    (flattenWithNodes f p).map Prod.fst = flattenPolicyStructure f p := by
  induction f, p using flattenWithNodes.induct with
  | case1 _ => simp [flattenWithNodes, flattenPolicyStructure]
  | case2 cur l rest path ih1 ih2 =>
    simp [flattenWithNodes, flattenPolicyStructure, ih1, ih2]
  | case3 cur ce ch rest path hne ih =>
    cases ce with
    | true =>
      cases ch with
      | some l => exact (hne l rfl rfl).elim
      | none => simp [flattenWithNodes, flattenPolicyStructure, ih]
    | false => simp [flattenWithNodes, flattenPolicyStructure, ih]

/-! ## Claim C3: path resolution algorithm -/

/-- Claim C3, counterexample to the stated algorithm: the claim resolves by
strict first-match (formalized by findByPathFirstMatch, which fails when
the first label match lacks qualifying children), but on the forest with
two roots labelled a — the first childless, the second with a child b — the
code skips the childless first match and resolves a > b to the node b,
where the claim requires not-found. -/
theorem findNodeByPath_first_match_cex :
    findByPathFirstMatch
        [PolicyNode.mk "a" false none,
         PolicyNode.mk "a" true (some [PolicyNode.mk "b" false none])]
        ["a", "b"] = none
    ∧ findNodeByPath
        [PolicyNode.mk "a" false none,
         PolicyNode.mk "a" true (some [PolicyNode.mk "b" false none])]
        ["a", "b"] = some (PolicyNode.mk "b" false none) := by
  constructor
  · simp +decide [findByPathFirstMatch]
  · simp +decide [findNodeByPath]

/-- Claim C3 (amended): findNodeByPath scans the level in input order; a
node whose lowercased label equals the head segment is returned when the
head is the last segment; otherwise, when it declares qualifying children
(child_exists with a present child array) resolution commits to the
recursion into them, while a matched node without qualifying children is
skipped in favor of the later siblings; a mismatching node is skipped; and
for every forest with no root whose lowercased label equals nonexistent,
resolving the path [nonexistent] returns not-found. -/
theorem findNodeByPath_resolution :
    (∀ (cur : String) (ce : Bool) (ch : Option (List PolicyNode))
        (rest : List PolicyNode) (t0 : String),
        findNodeByPath (.mk cur ce ch :: rest) [t0]
          = if jsToLower cur = t0 then some (.mk cur ce ch)
            else findNodeByPath rest [t0])
    ∧ (∀ (cur : String) (l rest : List PolicyNode) (t0 t1 : String) (ts : List String),
        jsToLower cur = t0 →
        findNodeByPath (.mk cur true (some l) :: rest) (t0 :: t1 :: ts)
          = findNodeByPath l (t1 :: ts))
    ∧ (∀ (cur : String) (ce : Bool) (ch : Option (List PolicyNode))
        (rest : List PolicyNode) (t0 t1 : String) (ts : List String),
        jsToLower cur = t0 → ce = false ∨ ch = none →
        findNodeByPath (.mk cur ce ch :: rest) (t0 :: t1 :: ts)
          = findNodeByPath rest (t0 :: t1 :: ts))
    ∧ (∀ (cur : String) (ce : Bool) (ch : Option (List PolicyNode))
        (rest : List PolicyNode) (t0 : String) (ts : List String),
        jsToLower cur ≠ t0 →
        findNodeByPath (.mk cur ce ch :: rest) (t0 :: ts)
          = findNodeByPath rest (t0 :: ts))
    ∧ (∀ f : List PolicyNode,
        (∀ n ∈ f, jsToLower n.current ≠ "nonexistent") →
        findNodeByPath f ["nonexistent"] = none) := by
  refine ⟨?_, ?_, ?_, ?_, ?_⟩
  · intro cur ce ch rest t0
    rw [findNodeByPath.eq_def]
    by_cases h : jsToLower cur = t0 <;> simp [h]
  · intro cur l rest t0 t1 ts h
    rw [findNodeByPath.eq_def]
    simp [h]
  · intro cur ce ch rest t0 t1 ts h hor
    rw [findNodeByPath.eq_def]
    rcases hor with hce | hch
    · subst hce
      cases ch <;> simp [h]
    · subst hch
      cases ce <;> simp [h]
  · intro cur ce ch rest t0 ts h
    rw [findNodeByPath.eq_def]
    cases ts <;> simp [h]
  · intro f hf
    induction f with
    | nil => simp [findNodeByPath]
    | cons n rest ih =>
      obtain ⟨cur, ce, ch⟩ := n
      have hhd := hf (.mk cur ce ch) (by simp)
      simp only [PolicyNode.current] at hhd
      rw [findNodeByPath.eq_def]
      simp [hhd]
      exact ih fun n hn => hf n (by simp [hn])

/-- Claim C3 witness: the amended resolution rules applied at concrete
inputs, each hypothesis discharged there. -/
theorem findNodeByPath_resolution_witness :
    findNodeByPath [PolicyNode.mk "a" false none] ["a"]
      = (if jsToLower "a" = "a" then some (PolicyNode.mk "a" false none)
         else findNodeByPath [] ["a"])
    ∧ findNodeByPath
        [PolicyNode.mk "a" true (some [PolicyNode.mk "b" false none])] ["a", "b"]
      = findNodeByPath [PolicyNode.mk "b" false none] ["b"]
    ∧ findNodeByPath
        [PolicyNode.mk "a" false none, PolicyNode.mk "c" false none] ["a", "b"]
      = findNodeByPath [PolicyNode.mk "c" false none] ["a", "b"]
    ∧ findNodeByPath
        [PolicyNode.mk "a" false none, PolicyNode.mk "c" false none] ["c"]
      = findNodeByPath [PolicyNode.mk "c" false none] ["c"]
    ∧ findNodeByPath [PolicyNode.mk "a" false none] ["nonexistent"] = none := by
  refine ⟨findNodeByPath_resolution.1 "a" false none [] "a",
    findNodeByPath_resolution.2.1 "a" [PolicyNode.mk "b" false none] [] "a" "b" []
      (by decide),
    findNodeByPath_resolution.2.2.1 "a" false none [PolicyNode.mk "c" false none]
      "a" "b" [] (by decide) (Or.inl rfl),
    findNodeByPath_resolution.2.2.2.1 "a" false none [PolicyNode.mk "c" false none]
      "c" [] (by decide),
    findNodeByPath_resolution.2.2.2.2 [PolicyNode.mk "a" false none] ?_⟩
  intro n hn
  simp at hn
  subst hn
  decide

/-! ## Claim C4: insertion under a parent path -/

/-- Claim C4, counterexample: insertion does not resolve the parent by the
findNodeByPath traversal.  On the forest with one root a carrying
child_exists = false but a present child array holding b, addToParent
inserts under the path a > b (it recurses on the mere presence of the child
array), while findNodeByPath does not locate that parent (it also demands
the child_exists flag), so success is not equivalent to the Path Resolver
locating the parent. -/
theorem addToParent_locator_cex :
    (addToParent { current := "x" }
        [PolicyNode.mk "a" false (some [PolicyNode.mk "b" false none])]
        ["a", "b"]).isSome = true
    ∧ findNodeByPath [PolicyNode.mk "a" false (some [PolicyNode.mk "b" false none])]
        ["a", "b"] = none := by
  constructor
  · simp +decide [addToParent]
  · simp +decide [findNodeByPath]

/-- Claim C4 (amended): insertion under a non-empty parent path resolves
the parent by the first-match segment-consumption traversal of addToParent
itself (findParent): it commits to recursion whenever the matched node
carries a present child array, irrespective of the child_exists flag, and
skips matched nodes without one.  Insertion succeeds exactly when this
traversal locates the parent; at the located parent the materialized new
node (hasChildren defaulted to false, children defaulted to empty) is
appended to the (created-if-absent) children sequence and the parent flag
is forced to true.  The concrete marine example behaves as the claim
states: inserting demurrage under marine yields two children of marine and
a true flag. -/
theorem addToParent_insertion :
    (∀ (nn : NewNode) (f : List PolicyNode) (path : List String),
        (addToParent nn f path).isSome = findParent f path)
    ∧ (∀ (nn : NewNode) (cur : String) (ce : Bool) (ch : Option (List PolicyNode))
        (rest : List PolicyNode) (t0 : String),
        jsToLower cur = t0 →
        addToParent nn (.mk cur ce ch :: rest) [t0]
          = some (.mk cur true (some (ch.getD [] ++ [materializeNewNode nn])) :: rest))
    ∧ (∀ cur : String, materializeNewNode { current := cur } = .mk cur false (some []))
    ∧ addToParent { current := "demurrage" }
        [PolicyNode.mk "marine" true (some [PolicyNode.mk "container" false none])]
        (parsePath "marine")
      = some [PolicyNode.mk "marine" true
          (some [PolicyNode.mk "container" false none,
                 PolicyNode.mk "demurrage" false (some [])])] := by
  refine ⟨?_, ?_, ?_, ?_⟩
  · intro nn f path
    induction f, path using addToParent.induct nn with
    | case1 _ => simp [addToParent, findParent]
    | case2 head tail => simp [addToParent, findParent]
    | case3 cur ce ch rest ts hts =>
      rw [addToParent.eq_def, findParent.eq_def]
      simp [hts]
    | case4 cur ce rest ts hts l2 l2' hrec ih =>
      rw [addToParent.eq_def, findParent.eq_def]
      simp [hts, hrec, ← ih]
    | case5 cur ce rest ts hts l2 hrec ih =>
      rw [addToParent.eq_def, findParent.eq_def]
      simp [hts, hrec, ← ih]
    | case6 cur ce rest ts hts l2 hrec ih =>
      rw [addToParent.eq_def, findParent.eq_def]
      simp [hts, hrec, ← ih]
    | case7 cur ce rest ts hts hrec ih =>
      rw [addToParent.eq_def, findParent.eq_def]
      simp [hts, hrec, ← ih]
    | case8 cur ce ch rest t0 ts hne l2 hrec ih =>
      rw [addToParent.eq_def, findParent.eq_def]
      simp [hne, hrec, ← ih]
    | case9 cur ce ch rest t0 ts hne hrec ih =>
      rw [addToParent.eq_def, findParent.eq_def]
      simp [hne, hrec, ← ih]
  · intro nn cur ce ch rest t0 h
    subst h
    rw [addToParent.eq_def]
    simp
  · intro cur
    simp [materializeNewNode]
  · simp +decide [addToParent, materializeNewNode,
      show parsePath "marine" = ["marine"] from by decide]

/-- Claim C4 witness: the amended insertion rules applied at concrete
inputs, each hypothesis discharged there. -/
theorem addToParent_insertion_witness :
    (addToParent { current := "x" } [PolicyNode.mk "a" true (some [])] ["a"]).isSome
      = findParent [PolicyNode.mk "a" true (some [])] ["a"]
    ∧ addToParent { current := "x" } [PolicyNode.mk "a" false none] ["a"]
      = some [PolicyNode.mk "a" true
          (some ((Option.none.getD []) ++ [materializeNewNode { current := "x" }]))] := by
  exact ⟨addToParent_insertion.1 { current := "x" } [PolicyNode.mk "a" true (some [])] ["a"],
    addToParent_insertion.2.1 { current := "x" } "a" false none [] "a" (by decide)⟩

/-! ## Claim C5: flatten is a pre-order linearization -/

theorem flatten_entry_shape (f : List PolicyNode) (p : List String) :
    ∀ e ∈ flattenPolicyStructure f p,
      e.level = e.full_path.length ∧ e.full_path.take p.length = p
        ∧ p.length < e.full_path.length := by
  induction f, p using flattenPolicyStructure.induct with
  | case1 _ => simp [flattenPolicyStructure]
  | case2 cur l rest path ih1 ih2 =>
    intro e he
    rw [flattenPolicyStructure.eq_def] at he
    simp only [List.mem_cons, List.mem_append] at he
    rcases he with he | he | he
    · subst he
      refine ⟨rfl, ?_, ?_⟩
      · show (path ++ [cur]).take path.length = path
        exact List.take_left path [cur]
      · show path.length < (path ++ [cur]).length
        simp
    · obtain ⟨h1, h2, h3⟩ := ih1 e he
      have hlen : (path ++ [cur]).length = path.length + 1 := by simp
      rw [hlen] at h2 h3
      refine ⟨h1, ?_, by omega⟩
      have htk := congrArg (fun t => List.take path.length t) h2
      simp only [List.take_take] at htk
      have hmin : min path.length (path.length + 1) = path.length := by omega
      rw [hmin] at htk
      rw [htk]
      exact List.take_left path [cur]
    · exact ih2 e he
  | case3 cur ce ch rest path hne ih =>
    intro e he
    have hsplit : flattenPolicyStructure (PolicyNode.mk cur ce ch :: rest) path
        = mkEntry cur ce path :: flattenPolicyStructure rest path := by
      cases ce with
      | true =>
        cases ch with
        | some l => exact (hne l rfl rfl).elim
        | none => rw [flattenPolicyStructure.eq_def]
      | false => rw [flattenPolicyStructure.eq_def]
    rw [hsplit] at he
    simp only [List.mem_cons] at he
    rcases he with he | he
    · subst he
      refine ⟨rfl, ?_, ?_⟩
      · show (path ++ [cur]).take path.length = path
        exact List.take_left path [cur]
      · show path.length < (path ++ [cur]).length
        simp
    · exact ih e he

theorem flatten_length_wf (f : List PolicyNode) (p : List String) :
    wellFormed f = true → (flattenPolicyStructure f p).length = totalNodeCount f := by
  induction f, p using flattenPolicyStructure.induct with
  | case1 _ => simp [flattenPolicyStructure, totalNodeCount, wellFormed]
  | case2 cur l rest path ih1 ih2 =>
    intro hwf
    rw [wellFormed.eq_def] at hwf
    simp only [Bool.true_or, Bool.and_eq_true, Bool.or_eq_true] at hwf
    obtain ⟨hl, hrest⟩ := hwf.2
    rw [flattenPolicyStructure.eq_def, totalNodeCount.eq_def]
    simp [ih1 hl, ih2 hrest]
    omega
  | case3 cur ce ch rest path hne ih =>
    intro hwf
    cases ce with
    | true =>
      cases ch with
      | some l => exact (hne l rfl rfl).elim
      | none =>
        rw [wellFormed.eq_def] at hwf
        rw [flattenPolicyStructure.eq_def, totalNodeCount.eq_def]
        simp [ih hwf]
        omega
    | false =>
      cases ch with
      | some l =>
        rw [wellFormed.eq_def] at hwf
        simp only [Bool.false_or, Bool.and_eq_true] at hwf
        obtain ⟨hemp, _, hrest⟩ := hwf
        rw [flattenPolicyStructure.eq_def, totalNodeCount.eq_def]
        have : l = [] := by
          cases l with
          | nil => rfl
          | cons a b => simp at hemp
        subst this
        simp [ih hrest, totalNodeCount]
        omega
      | none =>
        rw [wellFormed.eq_def] at hwf
        rw [flattenPolicyStructure.eq_def, totalNodeCount.eq_def]
        simp [ih hwf]
        omega

/-- Claim C5, counterexample to the length clause: on the forest with one
root labelled a whose child array holds b but whose child_exists flag is
false, flatten emits a single entry while the total node count including
all nested descendants is two, so the output length does not equal the
total node count on every forest. -/
theorem flatten_length_cex :
    (flattenPolicyStructure
        [PolicyNode.mk "a" false (some [PolicyNode.mk "b" false none])] []).length
      ≠ totalNodeCount [PolicyNode.mk "a" false (some [PolicyNode.mk "b" false none])] := by
  simp [flattenPolicyStructure, totalNodeCount]

/-- Claim C5 (amended): flatten is a pre-order depth-first linearization:
around any node of a level, the output is the flattened earlier siblings,
then the node entry itself, then contiguously its entire flattened
qualifying subtree, then the flattened later siblings — sibling order equal
to input order; for every forest satisfying the data-model invariant (a
false has-children flag carries an empty or absent child array) the output
length equals the total node count including all nested descendants; every
entry level equals the length of its full path, which strictly extends the
prefix the traversal was started with, so every root entry has level 1 and
the entries of the children of a node at level k have level k + 1. -/
theorem flatten_preorder :
    (∀ (p : List String) (pre post : List PolicyNode) (n : PolicyNode),
        flattenPolicyStructure (pre ++ n :: post) p
          = flattenPolicyStructure pre p
            ++ mkEntry n.current n.child_exists p
              :: (flattenPolicyStructure (visChildren n) (p ++ [n.current])
                ++ flattenPolicyStructure post p))
    ∧ (∀ f : List PolicyNode, wellFormed f = true →
        (flattenPolicyStructure f []).length = totalNodeCount f)
    ∧ (∀ (f : List PolicyNode) (p : List String), ∀ e ∈ flattenPolicyStructure f p,
        e.level = e.full_path.length ∧ e.full_path.take p.length = p
          ∧ p.length < e.full_path.length) := by
  refine ⟨?_, fun f => flatten_length_wf f [], flatten_entry_shape⟩
  intro p pre post n
  rw [flatten_append]
  congr 1
  match n with
  | .mk cur true (some l) =>
    rw [flattenPolicyStructure.eq_def]
    simp [PolicyNode.current, PolicyNode.child_exists, visChildren]
  | .mk cur true none =>
    rw [flattenPolicyStructure.eq_def]
    simp [PolicyNode.current, PolicyNode.child_exists, visChildren, flattenPolicyStructure]
  | .mk cur false ch =>
    rw [flattenPolicyStructure.eq_def]
    simp [PolicyNode.current, PolicyNode.child_exists, visChildren, flattenPolicyStructure]

/-- Claim C5 witness: the pre-order decomposition, the well-formed length
equality and the level facts applied at concrete inputs, each hypothesis
discharged there. -/
theorem flatten_preorder_witness :
    flattenPolicyStructure
        ([] ++ PolicyNode.mk "a" true (some [PolicyNode.mk "b" false none]) :: []) []
      = flattenPolicyStructure [] []
        ++ mkEntry (PolicyNode.mk "a" true (some [PolicyNode.mk "b" false none])).current
            (PolicyNode.mk "a" true (some [PolicyNode.mk "b" false none])).child_exists []
          :: (flattenPolicyStructure
                (visChildren (PolicyNode.mk "a" true (some [PolicyNode.mk "b" false none])))
                ([] ++ [(PolicyNode.mk "a" true (some [PolicyNode.mk "b" false none])).current])
            ++ flattenPolicyStructure [] [])
    ∧ (flattenPolicyStructure
          [PolicyNode.mk "a" true (some [PolicyNode.mk "b" false none])] []).length
        = totalNodeCount [PolicyNode.mk "a" true (some [PolicyNode.mk "b" false none])]
    ∧ ((mkEntry "a" true []).level = (mkEntry "a" true []).full_path.length
        ∧ (mkEntry "a" true []).full_path.take ([] : List String).length = []
        ∧ ([] : List String).length < (mkEntry "a" true []).full_path.length) := by
  refine ⟨flatten_preorder.1 [] [] []
      (PolicyNode.mk "a" true (some [PolicyNode.mk "b" false none])),
    flatten_preorder.2.1 [PolicyNode.mk "a" true (some [PolicyNode.mk "b" false none])]
      (by simp [wellFormed]),
    flatten_preorder.2.2 [PolicyNode.mk "a" true (some [PolicyNode.mk "b" false none])] []
      (mkEntry "a" true []) ?_⟩
  rw [flattenPolicyStructure.eq_def]
  simp

/-! ## Claim C8: leaves against flatten -/

/-- Claim C8: every entry of getLeafNodes also appears in
flattenPolicyStructure with the same name, path, level and full path and
with has_children = false; and a node with child_exists = true whose child
array is empty or missing contributes no leaf entry of its own — it is not
treated as a leaf. -/
theorem leaves_subset_flatten :
    (∀ (f : List PolicyNode) (p : List String), ∀ e ∈ getLeafNodes f p,
        (⟨e.name, e.path, e.level, false, e.full_path⟩ : FlatEntry)
          ∈ flattenPolicyStructure f p)
    ∧ (∀ (cur : String) (ch : Option (List PolicyNode)) (rest : List PolicyNode)
        (p : List String),
        ch = none ∨ ch = some [] →
        getLeafNodes (.mk cur true ch :: rest) p = getLeafNodes rest p) := by
  constructor
  · intro f p
    induction f, p using getLeafNodes.induct with
    | case1 _ => simp [getLeafNodes]
    | case2 cur ch rest path ih =>
      intro e he
      rw [getLeafNodes.eq_def] at he
      simp only [List.mem_cons] at he
      rw [flattenPolicyStructure.eq_def]
      cases ch with
      | some l =>
        rcases he with he | he
        · subst he
          simp [mkLeafEntry, mkEntry]
        · simp only [List.mem_cons]
          exact Or.inr (ih e he)
      | none =>
        rcases he with he | he
        · subst he
          simp [mkLeafEntry, mkEntry]
        · simp only [List.mem_cons]
          exact Or.inr (ih e he)
    | case3 cur l rest path ih1 ih2 =>
      intro e he
      rw [getLeafNodes.eq_def] at he
      simp only [List.mem_append] at he
      rw [flattenPolicyStructure.eq_def]
      simp only [List.mem_cons, List.mem_append]
      rcases he with he | he
      · exact Or.inr (Or.inl (ih1 e he))
      · exact Or.inr (Or.inr (ih2 e he))
    | case4 cur rest path ih =>
      intro e he
      rw [getLeafNodes.eq_def] at he
      rw [flattenPolicyStructure.eq_def]
      simp only [List.mem_cons]
      exact Or.inr (ih e he)
  · intro cur ch rest p hch
    rcases hch with hch | hch <;> subst hch <;> simp [getLeafNodes]

/-- Claim C8 witness: the leaf-subset inclusion and the non-emission of a
childless flagged node applied at concrete inputs, each hypothesis
discharged there. -/
theorem leaves_subset_flatten_witness :
    (⟨(mkLeafEntry "b" ["a"]).name, (mkLeafEntry "b" ["a"]).path,
        (mkLeafEntry "b" ["a"]).level, false, (mkLeafEntry "b" ["a"]).full_path⟩ : FlatEntry)
      ∈ flattenPolicyStructure [PolicyNode.mk "a" true (some [PolicyNode.mk "b" false none])] []
    ∧ getLeafNodes [PolicyNode.mk "x" true none, PolicyNode.mk "y" false none] []
      = getLeafNodes [PolicyNode.mk "y" false none] [] := by
  refine ⟨leaves_subset_flatten.1
      [PolicyNode.mk "a" true (some [PolicyNode.mk "b" false none])] []
      (mkLeafEntry "b" ["a"]) ?_,
    leaves_subset_flatten.2 "x" none [PolicyNode.mk "y" false none] [] (Or.inl rfl)⟩
  simp [getLeafNodes]

/-! ## Claim C6: root insertion and per-level counts -/

theorem childContrib_zero :
    ∀ (nodes : List PolicyNode) (level q : Nat), q ≤ level → childContrib nodes level q = 0 := by
  refine childContrib.induct
    (fun nodes level q => q < level → countNodesByLevel nodes level q = 0)
    (fun nodes level q => q ≤ level → childContrib nodes level q = 0)
    ?_ ?_ ?_ ?_
  · intro nodes level q h2 hlt
    rw [countNodesByLevel]
    simp [Nat.ne_of_lt hlt, h2 (Nat.le_of_lt hlt)]
  · intro level q _
    simp [childContrib]
  · intro cur l rest level q ih1 ih2 hle
    rw [childContrib.eq_def]
    simp [ih1 (Nat.lt_succ_of_le hle), ih2 hle]
  · intro cur ce ch rest level q hne ih hle
    have hsplit : childContrib (PolicyNode.mk cur ce ch :: rest) level q
        = childContrib rest level q := by
      cases ce with
      | true =>
        cases ch with
        | some l => exact (hne l rfl rfl).elim
        | none => rw [childContrib.eq_def]
      | false => rw [childContrib.eq_def]
    rw [hsplit]
    exact ih hle

theorem countNodesByLevel_zero (nodes : List PolicyNode) (level q : Nat)
    (h : q < level) : countNodesByLevel nodes level q = 0 := by
  rw [countNodesByLevel]
  simp [Nat.ne_of_lt h, childContrib_zero nodes level q (Nat.le_of_lt h)]

theorem childContrib_append (a b : List PolicyNode) (level q : Nat) :
    childContrib (a ++ b) level q = childContrib a level q + childContrib b level q := by
  induction a with
  | nil => simp [childContrib]
  | cons n rest ih =>
    match n with
    | .mk cur true (some l) =>
      rw [List.cons_append, childContrib.eq_def]
      conv_rhs => rw [childContrib.eq_def]
      simp only
      rw [ih]
      omega
    | .mk cur true none =>
      rw [List.cons_append, childContrib.eq_def]
      conv_rhs => rw [childContrib.eq_def]
      simp only
      exact ih
    | .mk cur false ch =>
      rw [List.cons_append, childContrib.eq_def]
      conv_rhs => rw [childContrib.eq_def]
      simp only
      exact ih

/-- Claim C6, counterexample: inserting at the root a new node that carries
its own visible child changes the level-2 count (from 0 to 1 on the empty
forest), so root insertion does not leave every other level count
unchanged for every inserted node. -/
theorem rootInsert_counts_cex :
    countNodesByLevel
        (rootInsert []
          { current := "x", child_exists := some true,
            child := some [PolicyNode.mk "y" false none] }) 1 2
      ≠ countNodesByLevel [] 1 2 := by
  simp [rootInsert, materializeNewNode, countNodesByLevel, childContrib]

/-- Claim C6 (amended): inserting a node at the root always increases the
level-1 count by exactly 1; it leaves the count of every other level
unchanged provided the inserted node carries no visible subtree (its
has-children flag defaults or is set to false, or its supplied children
sequence is empty); a new node with a visible subtree additionally adds
that subtree counts at the deeper levels. -/
theorem rootInsert_counts :
    (∀ (f : List PolicyNode) (nn : NewNode),
        countNodesByLevel (rootInsert f nn) 1 1 = countNodesByLevel f 1 1 + 1)
    ∧ (∀ (f : List PolicyNode) (nn : NewNode) (q : Nat), q ≠ 1 →
        nn.child_exists.getD false = false ∨ nn.child.getD [] = [] →
        countNodesByLevel (rootInsert f nn) 1 q = countNodesByLevel f 1 q) := by
  have hm : ∀ nn : NewNode, materializeNewNode nn
      = .mk nn.current (nn.child_exists.getD false) (some (nn.child.getD [])) :=
    fun _ => rfl
  constructor
  · intro f nn
    rw [rootInsert, countNodesByLevel, countNodesByLevel, childContrib_append]
    have h1 : childContrib [materializeNewNode nn] 1 1 = 0 := by
      rw [hm]
      cases hce : nn.child_exists.getD false with
      | true =>
        rw [childContrib.eq_def]
        simp [countNodesByLevel_zero _ 2 1 (by omega), childContrib]
      | false =>
        rw [childContrib.eq_def]
        simp [childContrib]
    rw [h1]
    simp
    omega
  · intro f nn q hq hnn
    rw [rootInsert, countNodesByLevel, countNodesByLevel, childContrib_append]
    have h1 : childContrib [materializeNewNode nn] 1 q = 0 := by
      rw [hm]
      cases hce : nn.child_exists.getD false with
      | true =>
        rcases hnn with hnn | hnn
        · rw [hnn] at hce
          exact absurd hce (by simp)
        · rw [hnn, childContrib.eq_def]
          simp [childContrib, countNodesByLevel, childContrib_zero]
      | false =>
        rw [childContrib.eq_def]
        simp [childContrib]
    rw [h1]
    simp [hq]

/-- Claim C6 witness: the amended count facts applied at concrete inputs,
each hypothesis discharged there. -/
theorem rootInsert_counts_witness :
    countNodesByLevel (rootInsert [PolicyNode.mk "a" false none] { current := "x" }) 1 1
      = countNodesByLevel [PolicyNode.mk "a" false none] 1 1 + 1
    ∧ countNodesByLevel (rootInsert [PolicyNode.mk "a" false none] { current := "x" }) 1 2
      = countNodesByLevel [PolicyNode.mk "a" false none] 1 2 := by
  exact ⟨rootInsert_counts.1 [PolicyNode.mk "a" false none] { current := "x" },
    rootInsert_counts.2 [PolicyNode.mk "a" false none] { current := "x" } 2
      (by decide) (Or.inl rfl)⟩

/-! ## Claim C10: unreachable descendants are invisible -/

theorem pruneForest_length (f : List PolicyNode) :
    (pruneForest f).length = f.length := by
  induction f with
  | nil => simp [pruneForest]
  | cons n rest ih => simp [pruneForest, ih]

theorem flatten_prune (f : List PolicyNode) (p : List String) :
    flattenPolicyStructure (pruneForest f) p = flattenPolicyStructure f p := by
  induction f, p using flattenPolicyStructure.induct with
  | case1 _ => simp [pruneForest]
  | case2 cur l rest path ih1 ih2 =>
    simp [pruneForest, pruneNode, flattenPolicyStructure, ih1, ih2]
  | case3 cur ce ch rest path hne ih =>
    cases ce with
    | true =>
      cases ch with
      | some l => exact (hne l rfl rfl).elim
      | none => simp [pruneForest, pruneNode, flattenPolicyStructure, ih]
    | false =>
      simp [pruneForest, pruneNode, flattenPolicyStructure, ih]

theorem leaves_prune (f : List PolicyNode) (p : List String) :
    getLeafNodes (pruneForest f) p = getLeafNodes f p := by
  induction f, p using getLeafNodes.induct with
  | case1 _ => simp [pruneForest]
  | case2 cur ch rest path ih =>
    simp [pruneForest, pruneNode, getLeafNodes, ih]
  | case3 cur l rest path ih1 ih2 =>
    simp [pruneForest, pruneNode, getLeafNodes, ih1, ih2]
  | case4 cur rest path ih =>
    simp [pruneForest, pruneNode, getLeafNodes, ih]

theorem childContrib_prune :
    ∀ (nodes : List PolicyNode) (level q : Nat),
      childContrib (pruneForest nodes) level q = childContrib nodes level q := by
  refine childContrib.induct
    (fun nodes level q =>
      countNodesByLevel (pruneForest nodes) level q = countNodesByLevel nodes level q)
    (fun nodes level q =>
      childContrib (pruneForest nodes) level q = childContrib nodes level q)
    ?_ ?_ ?_ ?_
  · intro nodes level q ih
    rw [countNodesByLevel, countNodesByLevel, pruneForest_length, ih]
  · intro level q
    simp [pruneForest, childContrib]
  · intro cur l rest level q ih1 ih2
    have hpr : pruneForest (PolicyNode.mk cur true (some l) :: rest)
        = PolicyNode.mk cur true (some (pruneForest l)) :: pruneForest rest := by
      simp [pruneForest, pruneNode]
    rw [hpr, childContrib.eq_def]
    conv_rhs => rw [childContrib.eq_def]
    simp only
    rw [ih1, ih2]
  · intro cur ce ch rest level q hne ih
    cases ce with
    | true =>
      cases ch with
      | some l => exact (hne l rfl rfl).elim
      | none =>
        have hpr : pruneForest (PolicyNode.mk cur true none :: rest)
            = PolicyNode.mk cur true none :: pruneForest rest := by
          simp [pruneForest, pruneNode]
        rw [hpr, childContrib.eq_def]
        conv_rhs => rw [childContrib.eq_def]
        simp only
        exact ih
    | false =>
      have hpr : pruneForest (PolicyNode.mk cur false ch :: rest)
          = PolicyNode.mk cur false none :: pruneForest rest := by
        simp [pruneForest, pruneNode]
      rw [hpr, childContrib.eq_def]
      conv_rhs => rw [childContrib.eq_def]
      simp only
      exact ih

theorem countNodesByLevel_prune (nodes : List PolicyNode) (level q : Nat) :
    countNodesByLevel (pruneForest nodes) level q = countNodesByLevel nodes level q := by
  rw [countNodesByLevel, countNodesByLevel, pruneForest_length, childContrib_prune]

theorem findNodeByPath_nil (f : List PolicyNode) : findNodeByPath f [] = none := by
  cases f with
  | nil => rw [findNodeByPath.eq_def]
  | cons h t =>
    cases h with
    | mk a b c => rw [findNodeByPath.eq_def]

theorem findNodeByPath_prune (f : List PolicyNode) (q : List String) :
    findNodeByPath (pruneForest f) q = (findNodeByPath f q).map pruneNode := by
  induction f, q using findNodeByPath.induct with
  | case1 x => simp [pruneForest, findNodeByPath]
  | case2 head tail =>
    rw [show pruneForest (head :: tail) = pruneNode head :: pruneForest tail from by
      simp [pruneForest]]
    rw [findNodeByPath_nil, findNodeByPath_nil]
    rfl
  | case3 cur ce ch rest ts hts =>
    cases ce <;> cases ch <;>
      simp [pruneForest, pruneNode, findNodeByPath, hts]
  | case4 cur rest ts hts l ih =>
    have hpr : pruneForest (PolicyNode.mk cur true (some l) :: rest)
        = PolicyNode.mk cur true (some (pruneForest l)) :: pruneForest rest := by
      simp [pruneForest, pruneNode]
    rw [hpr, findNodeByPath.eq_def]
    conv_rhs => rw [findNodeByPath.eq_def]
    simp only [if_pos rfl]
    simp [hts, ih]
  | case5 cur ce ch rest ts hts hne ih =>
    cases ce with
    | true =>
      cases ch with
      | some l => exact (hne l rfl rfl).elim
      | none =>
        have hpr : pruneForest (PolicyNode.mk cur true none :: rest)
            = PolicyNode.mk cur true none :: pruneForest rest := by
          simp [pruneForest, pruneNode]
        rw [hpr, findNodeByPath.eq_def]
        conv_rhs => rw [findNodeByPath.eq_def]
        simp [hts, ih]
    | false =>
      have hpr : pruneForest (PolicyNode.mk cur false ch :: rest)
          = PolicyNode.mk cur false none :: pruneForest rest := by
        simp [pruneForest, pruneNode]
      rw [hpr, findNodeByPath.eq_def]
      conv_rhs => rw [findNodeByPath.eq_def]
      simp [hts, ih]
  | case6 cur ce ch rest t0 ts hne ih =>
    have hcur : (pruneNode (PolicyNode.mk cur ce ch)).current = cur := by
      cases ce <;> cases ch <;> simp [pruneNode, PolicyNode.current]
    rw [show pruneForest (PolicyNode.mk cur ce ch :: rest)
        = pruneNode (PolicyNode.mk cur ce ch) :: pruneForest rest from by
      simp [pruneForest]]
    rw [findNodeByPath.eq_def]
    conv_rhs => rw [findNodeByPath.eq_def]
    match hmk : pruneNode (PolicyNode.mk cur ce ch) with
    | .mk cur2 ce2 ch2 =>
      have : cur2 = cur := by
        rw [hmk] at hcur
        simpa [PolicyNode.current] using hcur
      subst this
      simp [hne, ih]

/-- Claim C10: descendants stored under a node whose has-children flag is
false, and subtrees under a node whose flag is true but whose child array
is absent, are invisible to the read operations: erasing them (pruneForest)
changes neither the flatten output, nor the leaves output, nor any
per-level count, and path resolution is unaffected except that the single
node it returns carries the erased payload — so resolution never reaches
or produces entries for such descendants. -/
theorem hidden_descendants_invisible :
    ∀ (f : List PolicyNode) (p q : List String) (level c : Nat),
      flattenPolicyStructure (pruneForest f) p = flattenPolicyStructure f p
      ∧ getLeafNodes (pruneForest f) p = getLeafNodes f p
      ∧ countNodesByLevel (pruneForest f) level c = countNodesByLevel f level c
      ∧ findNodeByPath (pruneForest f) q = (findNodeByPath f q).map pruneNode :=
  fun f p q level c =>
    ⟨flatten_prune f p, leaves_prune f p, countNodesByLevel_prune f level c,
      findNodeByPath_prune f q⟩

/-! ## Claim C9: structure validator -/

theorem jsField_sizeOf (fields : List (String × JVal)) (k : String) (v : JVal)
    (h : jsField fields k = some v) : sizeOf v < 1 + sizeOf fields := by
  induction fields with
  | nil => simp [jsField] at h
  | cons p rest ih =>
    obtain ⟨k2, v2⟩ := p
    simp only [jsField] at h
    split at h
    · obtain rfl : v2 = v := by injection h
      simp
      omega
    · have := ih h
      simp
      omega

theorem validateAll_eq (l : List JVal) :
    validateAll l = true ↔ ∀ x ∈ l, validatePolicyNode x = true := by
  induction l with
  | nil => simp [validateAll]
  | cons v rest ih => simp [validateAll, ih]

theorem childFieldValid_eq (fields : List (String × JVal)) :
    childFieldValid fields
      = match jsField fields "child" with
        | some (.arr l) => validateAll l
        | _ => false := by
  induction fields with
  | nil => simp [childFieldValid, jsField]
  | cons p rest ih =>
    obtain ⟨k, v⟩ := p
    by_cases hk : k = "child"
    · subst hk
      cases v <;> simp [childFieldValid, jsField]
    · rw [show childFieldValid ((k, v) :: rest) = childFieldValid rest by
        rw [childFieldValid.eq_def]
        simp [hk]]
      rw [ih]
      rw [show jsField ((k, v) :: rest) "child" = jsField rest "child" by
        simp [jsField, hk]]

theorem validate_complete (v : JVal) (h : ValidNode v) :
    validatePolicyNode v = true := by
  induction h with
  | leaf fields s hcur hs hce =>
    simp only [validatePolicyNode, hcur, hce]
    simp [hs]
  | branch fields s l hcur hs hce hch hall ih =>
    simp only [validatePolicyNode, hcur, hce]
    simp only [if_neg hs, if_pos rfl]
    rw [childFieldValid_eq, hch]
    exact (validateAll_eq l).mpr ih

theorem validate_sound : ∀ (v : JVal), validatePolicyNode v = true → ValidNode v := by
  suffices h : ∀ (n : Nat), ∀ (v : JVal), sizeOf v ≤ n →
      validatePolicyNode v = true → ValidNode v from
    fun v => h (sizeOf v) v (Nat.le_refl _)
  intro n
  induction n using Nat.strong_induction_on with
  | _ n ih =>
    intro v hsz hval
    match v with
    | .str s => simp [validatePolicyNode] at hval
    | .num m => simp [validatePolicyNode] at hval
    | .bool b => simp [validatePolicyNode] at hval
    | .null => simp [validatePolicyNode] at hval
    | .arr l => simp [validatePolicyNode] at hval
    | .obj fields =>
      simp only [validatePolicyNode] at hval
      cases hcur : jsField fields "current" with
      | none => rw [hcur] at hval; simp at hval
      | some w =>
        rw [hcur] at hval
        match w with
        | .num m => simp at hval
        | .bool b => simp at hval
        | .null => simp at hval
        | .arr l => simp at hval
        | .obj f2 => simp at hval
        | .str s =>
          simp only at hval
          by_cases hs : s = ""
          · rw [if_pos hs] at hval; simp at hval
          · rw [if_neg hs] at hval
            cases hce : jsField fields "child_exists" with
            | none => rw [hce] at hval; simp at hval
            | some w2 =>
              rw [hce] at hval
              match w2 with
              | .num m => simp at hval
              | .str s2 => simp at hval
              | .null => simp at hval
              | .arr l2 => simp at hval
              | .obj f2 => simp at hval
              | .bool b =>
                simp only at hval
                cases b with
                | false => exact ValidNode.leaf fields s hcur hs hce
                | true =>
                  simp only [if_pos rfl] at hval
                  rw [childFieldValid_eq] at hval
                  cases hch : jsField fields "child" with
                  | none => rw [hch] at hval; simp at hval
                  | some w3 =>
                    rw [hch] at hval
                    match w3 with
                    | .num m => simp at hval
                    | .str s2 => simp at hval
                    | .null => simp at hval
                    | .bool b2 => simp at hval
                    | .obj f2 => simp at hval
                    | .arr l =>
                      simp only at hval
                      refine ValidNode.branch fields s l hcur hs hce hch ?_
                      intro x hx
                      have hx1 : sizeOf x < sizeOf l := List.sizeOf_lt_of_mem hx
                      have hx2 : sizeOf (JVal.arr l) < 1 + sizeOf fields :=
                        jsField_sizeOf fields "child" _ hch
                      have hx3 : sizeOf (JVal.arr l) = 1 + sizeOf l := by simp
                      have hx4 : sizeOf (JVal.obj fields) = 1 + sizeOf fields := by simp
                      exact ih (sizeOf x) (by omega) x (Nat.le_refl _)
                        ((validateAll_eq l).mp hval x hx)

/-- Claim C9: validatePolicyNode accepts exactly the candidates the
specification describes — an object with a non-empty string current, a
boolean child_exists, and, when the flag is true, a present array child
whose every element is recursively valid, the child field being
unconstrained when the flag is false; in particular an object with only
child_exists = true fails and an object with current fire and
child_exists = false passes. -/
theorem validatePolicyNode_correct :
    (∀ v : JVal, validatePolicyNode v = true ↔ ValidNode v)
    ∧ validatePolicyNode (.obj [("child_exists", .bool true)]) = false
    ∧ validatePolicyNode
        (.obj [("current", .str "fire"), ("child_exists", .bool false)]) = true := by
  refine ⟨fun v => ⟨validate_sound v, validate_complete v⟩, ?_, ?_⟩
  · rw [validatePolicyNode.eq_def]
    simp [jsField]
  · rw [validatePolicyNode.eq_def]
    simp [jsField]

/-! ## Claim C2: path round-trip -/

theorem trimmedLabels_cons (cur : String) (ce : Bool) (ch : Option (List PolicyNode))
    (rest : List PolicyNode) :
    trimmedLabels (.mk cur ce ch :: rest) = true ↔
      jsToLower (jsTrim cur) = jsToLower cur
        ∧ trimmedLabels (ch.getD []) = true ∧ trimmedLabels rest = true := by
  cases ch <;> simp [trimmedLabels]

theorem noDupSibLabels_cons (cur : String) (ce : Bool) (ch : Option (List PolicyNode))
    (rest : List PolicyNode) :
    noDupSibLabels (.mk cur ce ch :: rest) = true ↔
      (∀ n ∈ rest, jsToLower n.current ≠ jsToLower cur)
        ∧ noDupSibLabels (ch.getD []) = true ∧ noDupSibLabels rest = true := by
  cases ch <;> simp [noDupSibLabels]

theorem trimmedLabels_mem (xs : List PolicyNode) (h : trimmedLabels xs = true) :
    ∀ r ∈ xs, jsToLower (jsTrim r.current) = jsToLower r.current := by
  induction xs with
  | nil => simp
  | cons n rest ih =>
    intro r hr
    obtain ⟨c, e, ch⟩ := n
    rw [trimmedLabels_cons] at h
    rcases List.mem_cons.mp hr with hre | hre
    · subst hre
      simpa [PolicyNode.current] using h.1
    · exact ih h.2.2 r hre

theorem flattenWithNodes_roundtrip (f : List PolicyNode) (p : List String) :
    trimmedLabels f = true → noDupSibLabels f = true →
    ∀ pr ∈ flattenWithNodes f p,
      ∃ s0 suf, pr.1.full_path = p ++ s0 :: suf
        ∧ (∃ r ∈ f, r.current = s0)
        ∧ findNodeByPath f ((s0 :: suf).map normSeg) = some pr.2 := by
  induction f, p using flattenWithNodes.induct with
  | case1 _ => simp [flattenWithNodes]
  | case2 cur l rest path ih1 ih2 =>
    intro htr hnd pr hpr
    rw [trimmedLabels_cons] at htr
    rw [noDupSibLabels_cons] at hnd
    obtain ⟨htc, htl, htrest⟩ := htr
    obtain ⟨hnh, hnl, hnrest⟩ := hnd
    rw [flattenWithNodes.eq_def] at hpr
    simp only [List.mem_cons, List.mem_append] at hpr
    rcases hpr with hpr | hpr | hpr
    · subst hpr
      refine ⟨cur, [], by simp [mkEntry], ⟨.mk cur true (some l), by simp, rfl⟩, ?_⟩
      rw [findNodeByPath.eq_def]
      simp [normSeg, htc]
    · obtain ⟨s0, suf, hfp, _, hfind⟩ := ih1 htl hnl pr hpr
      refine ⟨cur, s0 :: suf, by simp [hfp], ⟨.mk cur true (some l), by simp, rfl⟩, ?_⟩
      rw [findNodeByPath.eq_def]
      simp only [List.map_cons]
      simp [normSeg, htc]
      simpa [normSeg] using hfind
    · obtain ⟨s0, suf, hfp, ⟨r, hrmem, hrcur⟩, hfind⟩ := ih2 htrest hnrest pr hpr
      refine ⟨s0, suf, hfp, ⟨r, by simp [hrmem], hrcur⟩, ?_⟩
      have hne2 : ¬jsToLower cur = normSeg s0 := by
        subst hrcur
        have h1 : normSeg r.current = jsToLower r.current :=
          trimmedLabels_mem rest htrest r hrmem
        rw [h1]
        exact fun hh => hnh r hrmem hh.symm
      rw [findNodeByPath.eq_def]
      simp only [List.map_cons]
      simp only [hne2, if_false]
      simpa using hfind
  | case3 cur ce ch rest path hne ih =>
    intro htr hnd pr hpr
    rw [trimmedLabels_cons] at htr
    rw [noDupSibLabels_cons] at hnd
    obtain ⟨htc, _, htrest⟩ := htr
    obtain ⟨hnh, _, hnrest⟩ := hnd
    have hsplit : flattenWithNodes (PolicyNode.mk cur ce ch :: rest) path
        = (mkEntry cur ce path, .mk cur ce ch) :: flattenWithNodes rest path := by
      cases ce with
      | true =>
        cases ch with
        | some l => exact (hne l rfl rfl).elim
        | none => rw [flattenWithNodes.eq_def]
      | false => rw [flattenWithNodes.eq_def]
    rw [hsplit] at hpr
    simp only [List.mem_cons] at hpr
    rcases hpr with hpr | hpr
    · subst hpr
      refine ⟨cur, [], by simp [mkEntry], ⟨.mk cur ce ch, by simp, rfl⟩, ?_⟩
      rw [findNodeByPath.eq_def]
      simp [normSeg, htc]
    · obtain ⟨s0, suf, hfp, ⟨r, hrmem, hrcur⟩, hfind⟩ := ih htrest hnrest pr hpr
      refine ⟨s0, suf, hfp, ⟨r, by simp [hrmem], hrcur⟩, ?_⟩
      have hne2 : ¬jsToLower cur = normSeg s0 := by
        subst hrcur
        have h1 : normSeg r.current = jsToLower r.current :=
          trimmedLabels_mem rest htrest r hrmem
        rw [h1]
        exact fun hh => hnh r hrmem hh.symm
      rw [findNodeByPath.eq_def]
      simp only [List.map_cons]
      simp only [hne2, if_false]
      simpa using hfind

/-- Claim C2, counterexample: with two sibling roots sharing the lowercased
label a (distinguished by their child fields), flatten emits an entry for
the second root, but resolving the reported path of that entry returns the
first root, not the node that produced the entry. -/
theorem path_roundtrip_cex :
    (mkEntry "a" false [], PolicyNode.mk "a" false (some []))
        ∈ flattenWithNodes
            [PolicyNode.mk "a" false none, PolicyNode.mk "a" false (some [])] []
    ∧ findNodeByPath [PolicyNode.mk "a" false none, PolicyNode.mk "a" false (some [])]
        ((mkEntry "a" false []).full_path.map normSeg)
      ≠ some (PolicyNode.mk "a" false (some [])) := by
  constructor
  · simp [flattenWithNodes]
  · rw [show (mkEntry "a" false []).full_path.map normSeg = ["a"] from by decide]
    simp +decide [findNodeByPath]

/-- Claim C2 (amended): flattenWithNodes pairs each flatten entry with the
node that produced it (its entry projection is exactly
flattenPolicyStructure); and for every forest whose labels are unchanged by
trimming (up to lowercasing) and in which no two siblings at any level
share a lowercased label, resolving the trimmed, lowercased full path
reported by any flatten entry with findNodeByPath returns exactly the node
that produced the entry.  Without those provisos the round trip fails:
duplicate sibling labels resolve to the first sibling, and labels with
surrounding whitespace never match their own normalized segments. -/
theorem path_roundtrip :
    (∀ (f : List PolicyNode) (p : List String),
        (flattenWithNodes f p).map Prod.fst = flattenPolicyStructure f p)
    ∧ (∀ f : List PolicyNode, trimmedLabels f = true → noDupSibLabels f = true →
        ∀ pr ∈ flattenWithNodes f [],
          findNodeByPath f (pr.1.full_path.map normSeg) = some pr.2) := by
  refine ⟨flattenWithNodes_map_fst, ?_⟩
  intro f htr hnd pr hpr
  obtain ⟨s0, suf, hfp, _, hfind⟩ := flattenWithNodes_roundtrip f [] htr hnd pr hpr
  rw [hfp]
  simpa using hfind

/-- Claim C2 witness: the round trip applied on a concrete forest with a
mixed-case label, each hypothesis discharged there. -/
theorem path_roundtrip_witness :
    (flattenWithNodes [PolicyNode.mk "Marine" true (some [PolicyNode.mk "container" false none])]
        []).map Prod.fst
      = flattenPolicyStructure
          [PolicyNode.mk "Marine" true (some [PolicyNode.mk "container" false none])] []
    ∧ findNodeByPath [PolicyNode.mk "Marine" true (some [PolicyNode.mk "container" false none])]
        ((mkEntry "container" false ["Marine"]).full_path.map normSeg)
      = some (PolicyNode.mk "container" false none) := by
  refine ⟨path_roundtrip.1
      [PolicyNode.mk "Marine" true (some [PolicyNode.mk "container" false none])] [],
    path_roundtrip.2
      [PolicyNode.mk "Marine" true (some [PolicyNode.mk "container" false none])]
      (by simp +decide [trimmedLabels])
      (by simp +decide [noDupSibLabels])
      (mkEntry "container" false ["Marine"], PolicyNode.mk "container" false none) ?_⟩
  simp [flattenWithNodes]

/-! ## Claim C1: value handed to the persistence update on insertion -/

/-- Claim C1, exhibiting the divergence: on a successful root insertion the
handler hands the persistence update JSON.stringify(policyData) — a raw
string — not the decoded forest: the persisted value is a StoredValue.str,
which is never the StoredValue.forest shape that createPolicy and
updatePolicy store and that every read operation consumes. -/
theorem addPolicyNode_persists_string :
    addPolicyNode [] none (some { current := "x" })
      = .updated (.str (stringifyForest (rootInsert [] { current := "x" })))
    ∧ stringifyForest (rootInsert [] { current := "x" })
      = "[\x7b\"current\":\"x\",\"child_exists\":false,\"child\":[]\x7d]"
    ∧ (∀ (s : String) (f : List PolicyNode), StoredValue.str s ≠ StoredValue.forest f) := by
  refine ⟨?_, ?_, fun s f h => StoredValue.noConfusion h⟩
  · simp +decide [addPolicyNode, deepCopy]
  · rw [show rootInsert [] { current := "x" }
        = [PolicyNode.mk "x" false (some [])] from rfl]
    simp only [stringifyForest, stringifyItems, stringifyNode]
    decide

/-! ## Claim C7: failed insertion leaves the stored forest intact -/

/-- Claim C7: node insertion operates on a deep copy of the decoded
structure (the JSON round trip, the identity on decoded forests), and when
parent-path resolution fails the handler answers parent-not-found without
calling the persistence update, so the record keeps exactly its prior
decoded forest — no partial mutation is persisted. -/
theorem addPolicyNode_failure_atomic :
    ∀ (stored : List PolicyNode) (p : String) (nn : NewNode),
      nn.current ≠ "" → p ≠ "" →
      addToParent nn (deepCopy stored) (parsePath p) = none →
      addPolicyNode stored (some p) (some nn) = .parentNotFound
      ∧ finalRecordData stored (some p) (some nn) = .forest stored
      ∧ deepCopy stored = stored := by
  intro stored p nn h1 h2 h3
  have hh : addPolicyNode stored (some p) (some nn) = .parentNotFound := by
    simp [addPolicyNode, h1, h2, h3]
  exact ⟨hh, by simp [finalRecordData, hh], rfl⟩

/-- Claim C7 witness: a concrete failing insertion, each hypothesis
discharged there. -/
theorem addPolicyNode_failure_atomic_witness :
    addPolicyNode [PolicyNode.mk "a" false none] (some "zzz") (some { current := "x" })
      = .parentNotFound
    ∧ finalRecordData [PolicyNode.mk "a" false none] (some "zzz") (some { current := "x" })
      = .forest [PolicyNode.mk "a" false none]
    ∧ deepCopy [PolicyNode.mk "a" false none] = [PolicyNode.mk "a" false none] :=
  addPolicyNode_failure_atomic [PolicyNode.mk "a" false none] "zzz" { current := "x" }
    (by decide) (by decide)
    (by simp +decide [addToParent, deepCopy, show parsePath "zzz" = ["zzz"] from by decide])
